import Mathlib

/-!
Verification of the decentralized peer-discovery simulator
(the DecentralizedNetwork component of web-crypto-pocs).

The embedding below translates the discovery core:
identity derivation (generatePeerId), the XOR distance metric
(calculateDistance), closest-peer selection (findClosestPeers), the
per-peer discovery round (discoverPeers / discoverStep), peer
addition and removal, and the discovery-log trimming effect.
Machine integers are modelled as Nat (JS BigInt is arbitrary
precision, so no wrap-around is involved); the JS Map is modelled as
an association list with insertion-order set/delete semantics; the
fallible BigInt hex parse is modelled with Option.

Visualization-only fields of a peer (the x and y pixel coordinates,
the key-pair handle) are outside every claim and are omitted from the
Peer structure; no operation modelled here reads them.
-/

/-! ## Hex digits and parsing (BigInt of a 0x-prefixed string) -/

/-- The sixteen lowercase hexadecimal digit characters. -/
def lowerHexChars : List Char :=
  "0123456789abcdef".data

/-- Value of one hex digit, as the JS BigInt string parse accepts it:
digits 0-9, lowercase a-f and uppercase A-F; anything else fails. -/
def hexVal? (c : Char) : Option Nat :=
  if '0' ≤ c ∧ c ≤ '9' then some (c.toNat - 48)
  else if 'a' ≤ c ∧ c ≤ 'f' then some (c.toNat - 87)
  else if 'A' ≤ c ∧ c ≤ 'F' then some (c.toNat - 55)
  else none

/-- Value of a hex digit string (most significant digit first); fails on
the first non-hex character, as BigInt("0x…") throws on one. -/
def hexListVal? : List Char → Option Nat
  | [] => some 0
  | c :: cs =>
    match hexVal? c, hexListVal? cs with
    | some d, some v => some (d * 16 ^ cs.length + v)
    | _, _ => none

/-- Parse of BigInt("0x" ++ s): fails on an empty digit string (BigInt
of the bare string 0x throws) and on any non-hex character. -/
def parseHex? (s : String) : Option Nat :=
  if s.data.isEmpty then none else hexListVal? s.data

/-- Embedding of calculateDistance: parse both ids as unsigned integers
and return their bitwise XOR; the parse fails outside hex ids. -/
def calculateDistance (id1 id2 : String) : Option Nat :=
  match parseHex? id1, parseHex? id2 with
  | some n1, some n2 => some (n1 ^^^ n2)
  | _, _ => none

/-- Total projection of the hex parse, used by the network model where
every id is a generated hex string; agrees with parseHex? on them. -/
def hexNat (s : String) : Nat :=
  (parseHex? s).getD 0

/-- Total projection of calculateDistance for the network model. -/
def distNat (a b : String) : Nat :=
  hexNat a ^^^ hexNat b

/-- An id is a fixed-length (12) lowercase-hex string. -/
def LowerHex12 (s : String) : Prop :=
  s.data.length = 12 ∧ ∀ c ∈ s.data, c ∈ lowerHexChars

instance : DecidablePred LowerHex12 := fun s => by
  unfold LowerHex12; infer_instance

/-! ## Identity generation (generatePeerId)

The source exports the public key and digests it with SHA-256 (a
platform call); the repository code then renders the 32 digest bytes
as lowercase hex via toString(16).padStart(2, "0") and joins, and
keeps the first 12 characters.  The digest itself is outside the
repository, so generatePeerId is modelled as a function of the digest
byte list. -/

/-- Lowercase hex character of a digit below 16. -/
def hexChar (n : Nat) : Char :=
  if n < 10 then Char.ofNat (48 + n) else Char.ofNat (87 + n)

/-- Two lowercase hex characters of one byte, the image of
b.toString(16).padStart(2, "0") for a byte value. -/
def byteToHex (b : Nat) : List Char :=
  [hexChar (b / 16), hexChar (b % 16)]

/-- Embedding of generatePeerId as a function of the SHA-256 digest
bytes: render each byte as two lowercase hex characters, join, take
the first 12 characters. -/
def generatePeerId (digestBytes : List Nat) : String :=
  String.mk (((digestBytes.map byteToHex).flatten).take 12)

/-! ## Network model (the DecentralizedNetwork component state)

The component keeps the peer list in a ref and the discovery log in a
state hook.  One discovery round is the discover closure of
discoverPeers; it fires after the simulated delay and reads and
mutates the then-current state, so it is modelled as a state
transformer discoverStep.  The closure reads only the id of the peer
it was started for. -/

inductive PeerStatus where
  | discovering
  | connected
deriving DecidableEq

/-- A routing-table value: distance to the peer and last contact. -/
structure RTEntry where
  distance : Nat
  lastSeen : Nat
deriving DecidableEq

/-- A peer; the key-pair handle and the x and y pixel coordinates of
the source are visualization-only and carried by no claim. -/
structure Peer where
  id : String
  routingTable : List (String × RTEntry)
  lastSeen : Nat
  status : PeerStatus
deriving DecidableEq

/-- The component state: the peer list and the discovery log. -/
structure NetState where
  peers : List Peer
  logs : List String
deriving DecidableEq

/-- JS Map.set on an association list: replace in place when the key
is present, append otherwise (insertion order preserved). -/
def mapSet (m : List (String × RTEntry)) (k : String) (v : RTEntry) :
    List (String × RTEntry) :=
  if m.any (fun e => e.1 == k) then
    m.map (fun e => if e.1 = k then (k, v) else e)
  else m ++ [(k, v)]

/-- JS Map.delete on an association list. -/
def mapDelete (m : List (String × RTEntry)) (k : String) :
    List (String × RTEntry) :=
  m.filter (fun e => e.1 != k)

/-- The discovery log lines of the source, as functions of the ids. -/
def discoveringMsg (pid : String) : String :=
  "Peer " ++ pid.take 6 ++ " discovering closest peers..."

def clearedMsg (pid : String) : String :=
  "Peer " ++ pid.take 6 ++ " cleared routing table - no peers found"

def removedMsg (pid rid : String) : String :=
  "Peer " ++ pid.take 6 ++ " removed " ++ rid.take 6 ++ " from routing table"

def foundMsg (pid : String) (n : Nat) : String :=
  "Peer " ++ pid.take 6 ++ " found " ++ toString n ++ " close peers"

def joinedMsg (pid : String) : String :=
  "Peer " ++ pid.take 6 ++ " joined the network"

/-- Embedding of findClosestPeers: drop the target itself, sort
ascending by XOR distance to the target, keep the first count.  The
source sorts with a comparator returning -1 when distA < distB and 1
otherwise under the stable Array sort; a stable insertion sort by the
same ascending order models it (no claim depends on tie order). -/
def findClosestPeers (targetId : String) (allPeers : List Peer)
    (count : Nat := 3) : List Peer :=
  ((allPeers.filter (fun p => p.id != targetId)).insertionSort
    (fun a b => distNat a.id targetId ≤ distNat b.id targetId)).take count

/-- One step of the removal loop of discoverPeers over the current
routing-table ids: delete an id absent from the new closest ids and
append its removed-from-routing-table log line. -/
def pruneStep (pid : String) (newPeerIds : List String)
    (acc : List (String × RTEntry) × List String) (rid : String) :
    List (String × RTEntry) × List String :=
  if rid ∈ newPeerIds then acc
  else (mapDelete acc.1 rid, acc.2 ++ [removedMsg pid rid])

/-- The upsert loop of discoverPeers: set every closest peer with its
freshly computed distance and the current time. -/
def upsertAll (pid : String) (now : Nat) (closest : List Peer)
    (rt : List (String × RTEntry)) : List (String × RTEntry) :=
  closest.foldl (fun r c => mapSet r c.id ⟨distNat pid c.id, now⟩) rt

/-- Embedding of the body of the map callback of discoverPeers for the
peer whose id matches: clear when no closest peers were found (logging
the cleared line), otherwise prune stale ids (logging each removal)
and upsert the closest peers; either way status becomes connected. -/
def updateMatchingPeer (pid : String) (closest : List Peer) (now : Nat)
    (p : Peer) (logs : List String) : Peer × List String :=
  let currentPeerIds := p.routingTable.map Prod.fst
  if closest.length = 0 then
    ({ p with routingTable := [], status := .connected },
      logs ++ [clearedMsg pid])
  else
    let newPeerIds := closest.map Peer.id
    let pruned := currentPeerIds.foldl (pruneStep pid newPeerIds)
      (p.routingTable, logs)
    ({ p with
        routingTable := upsertAll pid now closest pruned.1,
        status := .connected }, pruned.2)

/-- One element of the map over the peer list: the matching peer is
rewritten, every other peer is returned unchanged. -/
def updatePeerStep (pid : String) (closest : List Peer) (now : Nat)
    (acc : List Peer × List String) (p : Peer) : List Peer × List String :=
  if p.id = pid then
    let r := updateMatchingPeer pid closest now p acc.2
    (acc.1 ++ [r.1], r.2)
  else (acc.1 ++ [p], acc.2)

/-- Embedding of one discovery round (the discover closure of
discoverPeers) applied when its simulated delay fires: append the
discovering line, rank the closest peers against the current peer
list, rebuild the peer list rewriting only the matching peer while
threading the log appends, then append the summary line. -/
def discoverStep (pid : String) (now : Nat) (st : NetState) : NetState :=
  let closest := findClosestPeers pid st.peers
  let folded := st.peers.foldl (updatePeerStep pid closest now)
    ([], st.logs ++ [discoveringMsg pid])
  { peers := folded.1, logs := folded.2 ++ [foundMsg pid closest.length] }

/-- A freshly created peer (createPeer): empty routing table, status
discovering; the id is generatePeerId of a fresh digest, a parameter
here. -/
def freshPeer (id : String) (now : Nat) : Peer :=
  { id := id, routingTable := [], lastSeen := now, status := .discovering }

/-- makeAnotherPeer and the bootstrap loop push a fresh peer. -/
def addPeer (id : String) (now : Nat) (st : NetState) : NetState :=
  { st with peers := st.peers ++ [freshPeer id now] }

/-- setDiscoveryLogs appends (the joined-the-network line etc.). -/
def appendLog (msg : String) (st : NetState) : NetState :=
  { st with logs := st.logs ++ [msg] }

/-- The Power button onClick: filter the peer out of the list; no
other field of the state is touched. -/
def removePeer (pid : String) (st : NetState) : NetState :=
  { st with peers := st.peers.filter (fun p => p.id != pid) }

/-- The interval tick refresh of lastSeen (subtracting a random value
from the current time, here an arbitrary function of the peer). -/
def touchPeers (f : String → Nat) (st : NetState) : NetState :=
  { st with peers := st.peers.map (fun p => { p with lastSeen := f p.id }) }

/-- The latency-reconfiguration reset: the init effect reruns and sets
the peer ref to the empty list; the log is kept. -/
def resetPeers (st : NetState) : NetState :=
  { st with peers := [] }

/-- Embedding of the log-trimming effect: while the log holds more
than 500 entries, shift off the oldest (front) entry. -/
def trimLogs (logs : List String) : List String :=
  if h : logs.length > 500 then trimLogs logs.tail else logs
termination_by logs.length
decreasing_by
  cases logs with
  | nil => simp at h
  | cons a l => simpa using Nat.lt_succ_self l.length

/-- The states the simulator can reach: the initial empty state closed
under the operations of the component: peer creation, a log append, a
peer removal, a discovery round firing, the tick refresh of lastSeen,
the trimming effect, and the reset on a latency change.  Created ids
are arbitrary strings standing for the generated ones, so every run of
the component is covered. -/
inductive Reachable : NetState → Prop where
  | init : Reachable { peers := [], logs := [] }
  | add (id : String) (now : Nat) {st : NetState} :
      Reachable st → Reachable (addPeer id now st)
  | logMsg (msg : String) {st : NetState} :
      Reachable st → Reachable (appendLog msg st)
  | remove (pid : String) {st : NetState} :
      Reachable st → Reachable (removePeer pid st)
  | discover (pid : String) (now : Nat) {st : NetState} :
      Reachable st → Reachable (discoverStep pid now st)
  | touch (f : String → Nat) {st : NetState} :
      Reachable st → Reachable (touchPeers f st)
  | trim {st : NetState} :
      Reachable st → Reachable { st with logs := trimLogs st.logs }
  | reset {st : NetState} :
      Reachable st → Reachable (resetPeers st)

/-- The routing-table component of the removal loop, carved out so the
table can be reasoned about apart from the threaded log. -/
def pruneTable (newIds : List String) (ids : List String)
    (rt : List (String × RTEntry)) : List (String × RTEntry) :=
  ids.foldl (fun r rid => if rid ∈ newIds then r else mapDelete r rid) rt

/-- The pure per-peer effect of a discovery round, equal to the first
component of updatePeerStep (proved below): the matching peer is
cleared or pruned-and-upserted and marked connected; others are
untouched. -/
def peerAfter (pid : String) (closest : List Peer) (now : Nat)
    (p : Peer) : Peer :=
  if p.id = pid then
    if closest.length = 0 then
      { p with routingTable := [], status := .connected }
    else
      { p with
          routingTable := upsertAll pid now closest
            (pruneTable (closest.map Peer.id) (p.routingTable.map Prod.fst)
              p.routingTable),
          status := .connected }
  else p

/-! ## Claim-level predicates -/

/-- No routing table of any peer holds an entry keyed by the id of that peer. -/
def NoSelfEntry (st : NetState) : Prop :=
  ∀ p ∈ st.peers, ∀ e ∈ p.routingTable, e.1 ≠ p.id

/-- After the round for pid fires on st, the table of the discovered
peer holds at most 3 entries, and exactly 3 when at least 3 candidates
(peers other than itself) existed when the round ran. -/
def RoundSizeOk (st : NetState) (pid : String) (now : Nat) : Prop :=
  ∀ q ∈ (discoverStep pid now st).peers, q.id = pid →
    q.routingTable.length ≤ 3 ∧
      (3 ≤ (st.peers.filter (fun p => p.id != pid)).length →
        q.routingTable.length = 3)

/-- After the round for pid fires on st, every peer it rewrote has an
empty table and connected status, and the cleared log line was
appended. -/
def EmptyRoundClears (st : NetState) (pid : String) (now : Nat) : Prop :=
  (∀ q ∈ (discoverStep pid now st).peers,
    q.routingTable = [] ∧ q.status = PeerStatus.connected) ∧
    clearedMsg pid ∈ (discoverStep pid now st).logs

/-- After the round for qid fires on st, the table of the discovered
peer holds no entry keyed by pid. -/
def StalePruned (st : NetState) (qid pid : String) (now : Nat) : Prop :=
  ∀ r ∈ (discoverStep qid now st).peers, r.id = qid →
    ∀ e ∈ r.routingTable, e.1 ≠ pid

/-- Every stored distance of the peer with id pid agrees with
calculateDistance applied to its id and the key of the entry. -/
def DistConsistent (st : NetState) (pid : String) : Prop :=
  ∀ q ∈ st.peers, q.id = pid → ∀ e ∈ q.routingTable,
    calculateDistance pid e.1 = some e.2.distance

/-- A sequence of appends to the log, the trimming effect running
after each append as it does after each state change. -/
def appendTrim (init : List String) (msgs : List String) : List String :=
  msgs.foldl (fun logs m => trimLogs (logs ++ [m])) init

/-! ## Basic facts about digits and parsing -/

theorem hexVal_isSome_of_mem (c : Char) (h : c ∈ lowerHexChars) :
    (hexVal? c).isSome := by
  have hall : ∀ x ∈ lowerHexChars, (hexVal? x).isSome := by decide
  exact hall c h

theorem hexVal_lt_16 (c : Char) (h : c ∈ lowerHexChars) (d : Nat)
    (hd : hexVal? c = some d) : d < 16 := by
  have hall : ∀ x ∈ lowerHexChars, (hexVal? x).getD 0 < 16 := by decide
  have hc := hall c h
  rw [hd] at hc
  simpa using hc

theorem hexVal_inj (c₁ c₂ : Char) (h₁ : c₁ ∈ lowerHexChars)
    (h₂ : c₂ ∈ lowerHexChars) (h : hexVal? c₁ = hexVal? c₂) : c₁ = c₂ := by
  have hall : ∀ x ∈ lowerHexChars, ∀ y ∈ lowerHexChars,
      hexVal? x = hexVal? y → x = y := by decide
  exact hall c₁ h₁ c₂ h₂ h

theorem hexListVal_isSome (l : List Char) (h : ∀ c ∈ l, c ∈ lowerHexChars) :
    ∃ v, hexListVal? l = some v ∧ v < 16 ^ l.length := by
  induction l with
  | nil => exact ⟨0, rfl, by decide⟩
  | cons c cs ih =>
    obtain ⟨v, hv, hvlt⟩ := ih (fun x hx => h x (List.mem_cons_of_mem _ hx))
    have hc := h c (List.mem_cons_self _ _)
    obtain ⟨d, hd⟩ := Option.isSome_iff_exists.mp (hexVal_isSome_of_mem c hc)
    refine ⟨d * 16 ^ cs.length + v, ?_, ?_⟩
    · simp [hexListVal?, hd, hv]
    · have hdlt : d < 16 := hexVal_lt_16 c hc d hd
      have h16 : (0:Nat) < 16 ^ cs.length := Nat.pos_pow_of_pos _ (by decide)
      calc d * 16 ^ cs.length + v
          < d * 16 ^ cs.length + 16 ^ cs.length := by omega
        _ = (d + 1) * 16 ^ cs.length := by ring
        _ ≤ 16 * 16 ^ cs.length := Nat.mul_le_mul_right _ (by omega)
        _ = 16 ^ (cs.length + 1) := by ring
        _ = 16 ^ (c :: cs).length := by simp

theorem digit_decompose_unique (k a b c d : Nat) (hk : 0 < k)
    (hb : b < k) (hd : d < k) (h : a * k + b = c * k + d) :
    a = c ∧ b = d := by
  have ha : (a * k + b) / k = a := by
    rw [Nat.add_comm, Nat.mul_comm, Nat.add_mul_div_left _ _ hk,
      Nat.div_eq_of_lt hb]
    exact Nat.zero_add a
  have hc : (c * k + d) / k = c := by
    rw [Nat.add_comm, Nat.mul_comm, Nat.add_mul_div_left _ _ hk,
      Nat.div_eq_of_lt hd]
    exact Nat.zero_add c
  have hac : a = c := by rw [← ha, ← hc, h]
  subst hac
  exact ⟨rfl, by omega⟩

theorem hexListVal_inj (l₁ l₂ : List Char) (hlen : l₁.length = l₂.length)
    (h₁ : ∀ c ∈ l₁, c ∈ lowerHexChars) (h₂ : ∀ c ∈ l₂, c ∈ lowerHexChars)
    (h : hexListVal? l₁ = hexListVal? l₂) : l₁ = l₂ := by
  induction l₁ generalizing l₂ with
  | nil => cases l₂ with
    | nil => rfl
    | cons c cs => simp at hlen
  | cons c cs ih =>
    cases l₂ with
    | nil => simp at hlen
    | cons c' cs' =>
      have hc := h₁ c (List.mem_cons_self _ _)
      have hc' := h₂ c' (List.mem_cons_self _ _)
      have hcs : ∀ x ∈ cs, x ∈ lowerHexChars :=
        fun x hx => h₁ x (List.mem_cons_of_mem _ hx)
      have hcs' : ∀ x ∈ cs', x ∈ lowerHexChars :=
        fun x hx => h₂ x (List.mem_cons_of_mem _ hx)
      obtain ⟨d, hd⟩ := Option.isSome_iff_exists.mp (hexVal_isSome_of_mem c hc)
      obtain ⟨d', hd'⟩ :=
        Option.isSome_iff_exists.mp (hexVal_isSome_of_mem c' hc')
      obtain ⟨v, hv, hvlt⟩ := hexListVal_isSome cs hcs
      obtain ⟨v', hv', hvlt'⟩ := hexListVal_isSome cs' hcs'
      have hlen' : cs.length = cs'.length := by simpa using hlen
      rw [hexListVal?, hexListVal?, hd, hd', hv, hv'] at h
      simp only [Option.some.injEq] at h
      rw [hlen'] at h hvlt
      obtain ⟨hdd, hvv⟩ := digit_decompose_unique (16 ^ cs'.length) d v d' v'
        (Nat.pos_pow_of_pos _ (by decide)) hvlt hvlt' h
      have hcc : c = c' := hexVal_inj c c' hc hc' (by rw [hd, hd', hdd])
      have : cs = cs' := ih cs' hlen' hcs hcs' (by rw [hv, hv', hvv])
      rw [hcc, this]

theorem parseHex_isSome_of_lowerHex12 (s : String) (h : LowerHex12 s) :
    ∃ v, parseHex? s = some v := by
  obtain ⟨hlen, hall⟩ := h
  obtain ⟨v, hv, -⟩ := hexListVal_isSome s.data hall
  refine ⟨v, ?_⟩
  have hne : s.data ≠ [] := by intro hc; rw [hc] at hlen; simp at hlen
  have he : s.data.isEmpty = false := by simpa [List.isEmpty_iff] using hne
  rw [parseHex?, he]
  simpa using hv

theorem parseHex_inj (s₁ s₂ : String) (h₁ : LowerHex12 s₁)
    (h₂ : LowerHex12 s₂) (h : parseHex? s₁ = parseHex? s₂) : s₁ = s₂ := by
  obtain ⟨hlen₁, hall₁⟩ := h₁
  obtain ⟨hlen₂, hall₂⟩ := h₂
  have hne₁ : s₁.data ≠ [] := by intro hc; rw [hc] at hlen₁; simp at hlen₁
  have hne₂ : s₂.data ≠ [] := by intro hc; rw [hc] at hlen₂; simp at hlen₂
  have he₁ : s₁.data.isEmpty = false := by simpa [List.isEmpty_iff] using hne₁
  have he₂ : s₂.data.isEmpty = false := by simpa [List.isEmpty_iff] using hne₂
  have hp : hexListVal? s₁.data = hexListVal? s₂.data := by
    rw [parseHex?, parseHex?, he₁, he₂] at h
    simpa using h
  have heq : s₁.data = s₂.data :=
    hexListVal_inj s₁.data s₂.data (by omega) hall₁ hall₂ hp
  cases s₁; cases s₂
  exact congrArg String.mk heq

theorem calculateDistance_eq_distNat (a b : String) (ha : LowerHex12 a)
    (hb : LowerHex12 b) : calculateDistance a b = some (distNat a b) := by
  obtain ⟨va, hva⟩ := parseHex_isSome_of_lowerHex12 a ha
  obtain ⟨vb, hvb⟩ := parseHex_isSome_of_lowerHex12 b hb
  simp [calculateDistance, distNat, hexNat, hva, hvb]

/-! ## Lemmas about log trimming -/

theorem trimLogs_length_le (l : List String) : (trimLogs l).length ≤ 500 := by
  generalize hn : l.length = n
  induction n using Nat.strong_induction_on generalizing l with
  | _ n ih =>
    rw [trimLogs]
    split
    next h =>
      have ht : l.tail.length < n := by
        cases l with
        | nil => simp at h
        | cons a t => simp at hn ⊢; omega
      exact ih l.tail.length ht l.tail rfl
    next h => omega

theorem trimLogs_suffix (l : List String) : trimLogs l <:+ l := by
  generalize hn : l.length = n
  induction n using Nat.strong_induction_on generalizing l with
  | _ n ih =>
    rw [trimLogs]
    split
    next h =>
      have ht : l.tail.length < n := by
        cases l with
        | nil => simp at h
        | cons a t => simp at hn ⊢; omega
      exact (ih l.tail.length ht l.tail rfl).trans (List.tail_suffix l)
    next h => exact List.suffix_refl l

theorem trimLogs_eq_of_le (l : List String) (h : l.length ≤ 500) :
    trimLogs l = l := by
  rw [trimLogs]
  split
  next hgt => omega
  next hgt => rfl

/-! ## Lemmas about the association-list Map operations -/

theorem mapDelete_mem {m : List (String × RTEntry)} {k : String}
    {e : String × RTEntry} : e ∈ mapDelete m k ↔ e ∈ m ∧ e.1 ≠ k := by
  simp [mapDelete, List.mem_filter, bne_iff_ne]

theorem mapSet_mem {m : List (String × RTEntry)} {k : String} {v : RTEntry}
    {e : String × RTEntry} (h : e ∈ mapSet m k v) :
    e = (k, v) ∨ (e ∈ m ∧ e.1 ≠ k) := by
  unfold mapSet at h
  split at h
  · obtain ⟨e0, he0, himg⟩ := List.mem_map.mp h
    by_cases hk : e0.1 = k
    · left; rw [← himg]; simp [hk]
    · right
      rw [← himg]
      simp only [hk, if_false]
      exact ⟨he0, hk⟩
  · next hany =>
    rcases List.mem_append.mp h with hm | hm
    · right
      refine ⟨hm, fun hk => hany ?_⟩
      exact List.any_eq_true.mpr ⟨e, hm, by simp [hk]⟩
    · left; simpa using hm

theorem keys_map_update (m : List (String × RTEntry)) (k : String)
    (v : RTEntry) :
    (m.map (fun e => if e.1 = k then (k, v) else e)).map Prod.fst =
      m.map Prod.fst := by
  rw [List.map_map]
  apply List.map_congr_left
  intro e _
  by_cases hk : e.1 = k <;> simp [hk]

theorem mem_keys_mapSet_self (m : List (String × RTEntry)) (k : String)
    (v : RTEntry) : k ∈ (mapSet m k v).map Prod.fst := by
  unfold mapSet
  split
  · next hany =>
    obtain ⟨e, he, hek⟩ := List.any_eq_true.mp hany
    have hk : e.1 = k := by simpa using hek
    refine List.mem_map.mpr ⟨(k, v), ?_, rfl⟩
    exact List.mem_map.mpr ⟨e, he, by simp [hk]⟩
  · simp

theorem mem_keys_mapSet_of_mem {m : List (String × RTEntry)} {k0 : String}
    (k : String) (v : RTEntry) (h : k0 ∈ m.map Prod.fst) :
    k0 ∈ (mapSet m k v).map Prod.fst := by
  unfold mapSet
  split
  · rw [keys_map_update]; exact h
  · simp only [List.map_append]
    exact List.mem_append_left _ h

theorem keys_nodup_mapSet {m : List (String × RTEntry)} {k : String}
    {v : RTEntry} (h : (m.map Prod.fst).Nodup) :
    ((mapSet m k v).map Prod.fst).Nodup := by
  unfold mapSet
  split
  · rw [keys_map_update]; exact h
  · next hany =>
    simp only [List.map_append, List.map_cons, List.map_nil]
    rw [List.nodup_append]
    refine ⟨h, List.nodup_singleton k, ?_⟩
    intro x hx hk
    simp only [List.mem_singleton] at hk
    subst hk
    obtain ⟨e, he, hek⟩ := List.mem_map.mp hx
    exact hany (List.any_eq_true.mpr ⟨e, he, by simp [hek]⟩)

theorem keys_nodup_mapDelete {m : List (String × RTEntry)} {k : String}
    (h : (m.map Prod.fst).Nodup) : ((mapDelete m k).map Prod.fst).Nodup :=
  ((List.filter_sublist m).map Prod.fst).nodup h

/-! ## Lemmas about the upsert and prune folds of a discovery round -/

theorem upsertAll_mem {pid : String} {now : Nat} {closest : List Peer}
    {rt : List (String × RTEntry)} {e : String × RTEntry}
    (h : e ∈ upsertAll pid now closest rt) :
    (∃ c ∈ closest, e = (c.id, ⟨distNat pid c.id, now⟩)) ∨
      (e ∈ rt ∧ e.1 ∉ closest.map Peer.id) := by
  induction closest generalizing rt with
  | nil => right; simpa [upsertAll] using h
  | cons c cs ih =>
    rw [upsertAll, List.foldl_cons] at h
    rcases ih h with hc | ⟨hmem, hnot⟩
    · obtain ⟨c', hc', he⟩ := hc
      exact Or.inl ⟨c', List.mem_cons_of_mem _ hc', he⟩
    · rcases mapSet_mem hmem with he | ⟨hrt, hne⟩
      · exact Or.inl ⟨c, List.mem_cons_self _ _, he⟩
      · refine Or.inr ⟨hrt, ?_⟩
        simp only [List.map_cons, List.mem_cons]
        push_neg
        exact ⟨hne, by simpa using hnot⟩

theorem mem_keys_upsertAll {pid : String} {now : Nat} {closest : List Peer}
    {rt : List (String × RTEntry)} {k0 : String}
    (h : k0 ∈ rt.map Prod.fst) :
    k0 ∈ (upsertAll pid now closest rt).map Prod.fst := by
  induction closest generalizing rt with
  | nil => simpa [upsertAll] using h
  | cons c cs ih =>
    rw [upsertAll, List.foldl_cons]
    exact ih (mem_keys_mapSet_of_mem _ _ h)

theorem closest_mem_keys_upsertAll {pid : String} {now : Nat}
    {closest : List Peer} {rt : List (String × RTEntry)} {c : Peer}
    (h : c ∈ closest) :
    c.id ∈ (upsertAll pid now closest rt).map Prod.fst := by
  induction closest generalizing rt with
  | nil => simp at h
  | cons c' cs ih =>
    rw [upsertAll, List.foldl_cons]
    rcases List.mem_cons.mp h with he | hmem
    · subst he
      exact mem_keys_upsertAll (mem_keys_mapSet_self _ _ _)
    · exact ih hmem

theorem keys_nodup_upsertAll {pid : String} {now : Nat}
    {closest : List Peer} {rt : List (String × RTEntry)}
    (h : (rt.map Prod.fst).Nodup) :
    ((upsertAll pid now closest rt).map Prod.fst).Nodup := by
  induction closest generalizing rt with
  | nil => simpa [upsertAll] using h
  | cons c cs ih =>
    rw [upsertAll, List.foldl_cons]
    exact ih (keys_nodup_mapSet h)

theorem pruneStep_fold_fst (pid : String) (newIds : List String) :
    ∀ (ids : List String) (rt : List (String × RTEntry))
      (logs : List String),
      (ids.foldl (pruneStep pid newIds) (rt, logs)).1 =
        pruneTable newIds ids rt := by
  intro ids
  induction ids with
  | nil => intro rt logs; rfl
  | cons rid rest ih =>
    intro rt logs
    rw [List.foldl_cons, pruneTable, List.foldl_cons]
    unfold pruneStep
    split
    · exact ih rt logs
    · exact ih (mapDelete rt rid) _

theorem pruneTable_mem {newIds : List String} {ids : List String}
    {rt : List (String × RTEntry)} {e : String × RTEntry}
    (h : e ∈ pruneTable newIds ids rt) :
    e ∈ rt ∧ (e.1 ∈ ids → e.1 ∈ newIds) := by
  induction ids generalizing rt with
  | nil => exact ⟨by simpa [pruneTable] using h, by simp⟩
  | cons rid rest ih =>
    rw [pruneTable, List.foldl_cons] at h
    split at h
    · next hin =>
      obtain ⟨hmem, hrest⟩ := ih h
      refine ⟨hmem, fun hx => ?_⟩
      rcases List.mem_cons.mp hx with he | hr
      · rw [he]; exact hin
      · exact hrest hr
    · next hin =>
      obtain ⟨hmem, hrest⟩ := ih h
      obtain ⟨hrt, hne⟩ := mapDelete_mem.mp hmem
      refine ⟨hrt, fun hx => ?_⟩
      rcases List.mem_cons.mp hx with he | hr
      · exact absurd he hne
      · exact hrest hr

theorem keys_nodup_pruneTable {newIds ids : List String}
    {rt : List (String × RTEntry)} (h : (rt.map Prod.fst).Nodup) :
    ((pruneTable newIds ids rt).map Prod.fst).Nodup := by
  induction ids generalizing rt with
  | nil => simpa [pruneTable] using h
  | cons rid rest ih =>
    rw [pruneTable, List.foldl_cons]
    split
    · exact ih h
    · exact ih (keys_nodup_mapDelete h)

/-! ## What one discovery round does to each peer -/

theorem updateMatchingPeer_fst (pid : String) (closest : List Peer)
    (now : Nat) (p : Peer) (logs : List String) :
    (updateMatchingPeer pid closest now p logs).1 =
      if closest.length = 0 then
        { p with routingTable := [], status := .connected }
      else
        { p with
            routingTable := upsertAll pid now closest
              (pruneTable (closest.map Peer.id)
                (p.routingTable.map Prod.fst) p.routingTable),
            status := .connected } := by
  unfold updateMatchingPeer
  split
  · rfl
  · simp only
    rw [pruneStep_fold_fst]

theorem pruneStep_fold_logs (pid : String) (newIds : List String) :
    ∀ (ids : List String) (rt : List (String × RTEntry))
      (logs : List String),
      ∃ t, (ids.foldl (pruneStep pid newIds) (rt, logs)).2 = logs ++ t := by
  intro ids
  induction ids with
  | nil => exact fun rt logs => ⟨[], by simp⟩
  | cons rid rest ih =>
    intro rt logs
    rw [List.foldl_cons, pruneStep]
    split
    · exact ih rt logs
    · obtain ⟨t, ht⟩ := ih (mapDelete rt rid) (logs ++ [removedMsg pid rid])
      exact ⟨[removedMsg pid rid] ++ t, by rw [ht, List.append_assoc]⟩

theorem updatePeerStep_logs_suffix (pid : String) (closest : List Peer)
    (now : Nat) (acc : List Peer × List String) (p : Peer) :
    ∃ t, (updatePeerStep pid closest now acc p).2 = acc.2 ++ t := by
  unfold updatePeerStep
  split
  · unfold updateMatchingPeer
    split
    · exact ⟨[clearedMsg pid], rfl⟩
    · simp only
      exact pruneStep_fold_logs pid (closest.map Peer.id)
        (p.routingTable.map Prod.fst) p.routingTable acc.2
  · exact ⟨[], by simp⟩

theorem updatePeerStep_fst (pid : String) (closest : List Peer) (now : Nat)
    (acc : List Peer × List String) (p : Peer) :
    (updatePeerStep pid closest now acc p).1 =
      acc.1 ++ [peerAfter pid closest now p] := by
  by_cases h : p.id = pid
  · simp only [updatePeerStep, peerAfter, if_pos h]
    rw [updateMatchingPeer_fst]
  · simp [updatePeerStep, peerAfter, h]

theorem updatePeerStep_fold_peers (pid : String) (closest : List Peer)
    (now : Nat) :
    ∀ (ps : List Peer) (acc : List Peer × List String),
      (ps.foldl (updatePeerStep pid closest now) acc).1 =
        acc.1 ++ ps.map (peerAfter pid closest now) := by
  intro ps
  induction ps with
  | nil => intro acc; simp
  | cons p rest ih =>
    intro acc
    rw [List.foldl_cons, ih, updatePeerStep_fst]
    simp

/-- The peer list after one discovery round is the pointwise image of
peerAfter, ranked against the peer list as it stood when the round
fired. -/
theorem discoverStep_peers (pid : String) (now : Nat) (st : NetState) :
    (discoverStep pid now st).peers =
      st.peers.map (peerAfter pid (findClosestPeers pid st.peers) now) := by
  simp only [discoverStep]
  rw [updatePeerStep_fold_peers]
  simp

theorem updatePeerStep_fold_nomatch (pid : String) (closest : List Peer)
    (now : Nat) :
    ∀ (ps : List Peer), (∀ p ∈ ps, p.id ≠ pid) →
      ∀ (acc : List Peer × List String),
        ps.foldl (updatePeerStep pid closest now) acc = (acc.1 ++ ps, acc.2) := by
  intro ps
  induction ps with
  | nil => intro h acc; simp
  | cons p rest ih =>
    intro h acc
    rw [List.foldl_cons, updatePeerStep,
      if_neg (h p (List.mem_cons_self _ _)),
      ih (fun q hq => h q (List.mem_cons_of_mem _ hq))]
    simp

/-- A round whose peer is gone from the current peer list (a stale
round completing after a reset) rewrites no peer but still appends its
two unconditional log lines. -/
theorem discoverStep_stale (pid : String) (now : Nat) (st : NetState)
    (h : ∀ p ∈ st.peers, p.id ≠ pid) :
    (discoverStep pid now st).peers = st.peers ∧
      (discoverStep pid now st).logs = st.logs ++
        [discoveringMsg pid,
          foundMsg pid (findClosestPeers pid st.peers).length] := by
  simp only [discoverStep]
  rw [updatePeerStep_fold_nomatch pid _ now st.peers h]
  exact ⟨by simp, by simp⟩

/-! ## Facts about closest-peer selection -/

theorem findClosestPeers_mem {targetId : String} {allPeers : List Peer}
    {count : Nat} {c : Peer}
    (h : c ∈ findClosestPeers targetId allPeers count) :
    c ∈ allPeers ∧ c.id ≠ targetId := by
  unfold findClosestPeers at h
  have h2 := (List.mem_insertionSort _).mp (List.mem_of_mem_take h)
  have h3 := List.mem_filter.mp h2
  exact ⟨h3.1, by simpa [bne_iff_ne] using h3.2⟩

theorem findClosestPeers_length (targetId : String) (allPeers : List Peer)
    (count : Nat) :
    (findClosestPeers targetId allPeers count).length =
      min count (allPeers.filter (fun p => p.id != targetId)).length := by
  unfold findClosestPeers
  rw [List.length_take, List.length_insertionSort]

theorem findClosestPeers_ids_nodup {targetId : String} {allPeers : List Peer}
    {count : Nat} (h : (allPeers.map Peer.id).Nodup) :
    ((findClosestPeers targetId allPeers count).map Peer.id).Nodup := by
  unfold findClosestPeers
  have hfil :
      (((allPeers.filter (fun p => p.id != targetId))).map Peer.id).Nodup :=
    ((List.filter_sublist allPeers).map Peer.id).nodup h
  have hperm := (List.perm_insertionSort
    (fun a b => distNat a.id targetId ≤ distNat b.id targetId)
    (allPeers.filter (fun p => p.id != targetId))).map Peer.id
  exact ((List.take_sublist _ _).map Peer.id).nodup (hperm.nodup_iff.mpr hfil)

/-! ## The routing table of the matched peer after a round -/

theorem matched_table_entries {pid : String} {now : Nat}
    {closest : List Peer} {rt : List (String × RTEntry)}
    {e : String × RTEntry}
    (h : e ∈ upsertAll pid now closest
      (pruneTable (closest.map Peer.id) (rt.map Prod.fst) rt)) :
    ∃ c ∈ closest, e = (c.id, ⟨distNat pid c.id, now⟩) := by
  rcases upsertAll_mem h with hc | ⟨hmem, hnot⟩
  · exact hc
  · exact absurd ((pruneTable_mem hmem).2
      (List.mem_map.mpr ⟨e, (pruneTable_mem hmem).1, rfl⟩)) hnot

theorem matched_table_length {pid : String} {now : Nat}
    {closest : List Peer} {rt : List (String × RTEntry)}
    (hnodup : (closest.map Peer.id).Nodup)
    (hwf : (rt.map Prod.fst).Nodup) :
    (upsertAll pid now closest
      (pruneTable (closest.map Peer.id) (rt.map Prod.fst) rt)).length =
      closest.length := by
  have hkn : ((upsertAll pid now closest
      (pruneTable (closest.map Peer.id) (rt.map Prod.fst) rt)).map
        Prod.fst).Nodup :=
    keys_nodup_upsertAll (keys_nodup_pruneTable hwf)
  have hsub1 : (upsertAll pid now closest
      (pruneTable (closest.map Peer.id) (rt.map Prod.fst) rt)).map Prod.fst ⊆
        closest.map Peer.id := by
    intro k hk
    obtain ⟨e, he, hek⟩ := List.mem_map.mp hk
    obtain ⟨c, hc, hce⟩ := matched_table_entries he
    rw [← hek, hce]
    exact List.mem_map.mpr ⟨c, hc, rfl⟩
  have hsub2 : closest.map Peer.id ⊆ (upsertAll pid now closest
      (pruneTable (closest.map Peer.id) (rt.map Prod.fst) rt)).map Prod.fst := by
    intro k hk
    obtain ⟨c, hc, hck⟩ := List.mem_map.mp hk
    rw [← hck]
    exact closest_mem_keys_upsertAll hc
  have hlen := le_antisymm ((hkn.subperm hsub1).length_le)
    ((hnodup.subperm hsub2).length_le)
  simpa using hlen

/-! ## Supporting lemmas for the empty-candidate round -/

theorem findClosestPeers_of_no_candidates {pid : String} {st : NetState}
    (hfil : st.peers.filter (fun p => p.id != pid) = []) :
    findClosestPeers pid st.peers = [] := by
  unfold findClosestPeers
  rw [hfil]
  simp

theorem updatePeerStep_fold_empty_logs (pid : String) (now : Nat) :
    ∀ (ps : List Peer), (∀ p ∈ ps, p.id = pid) →
      ∀ (acc : List Peer × List String),
        (ps.foldl (updatePeerStep pid [] now) acc).2 =
          acc.2 ++ ps.map (fun _ => clearedMsg pid) := by
  intro ps
  induction ps with
  | nil => intro h acc; simp
  | cons p rest ih =>
    intro h acc
    rw [List.foldl_cons, updatePeerStep, if_pos (h p (List.mem_cons_self _ _)),
      ih (fun q hq => h q (List.mem_cons_of_mem _ hq))]
    simp [updateMatchingPeer]

/-! ## Claim theorems -/

theorem hexChar_mem_lowerHex : ∀ n, n < 16 → hexChar n ∈ lowerHexChars := by
  decide

theorem byteHex_flatten_length (bs : List Nat) :
    ((bs.map byteToHex).flatten).length = 2 * bs.length := by
  induction bs with
  | nil => simp
  | cons b rest ih => simp [byteToHex, ih]; omega

/-- C7: for all ids a and b, calculateDistance a b equals
calculateDistance b a, and for every id that parses as hex,
calculateDistance of the id with itself is zero. -/
theorem claim_c7_distance_symm_and_self :
    (∀ a b : String, calculateDistance a b = calculateDistance b a) ∧
      (∀ a : String, (parseHex? a).isSome → calculateDistance a a = some 0) := by
  constructor
  · intro a b
    unfold calculateDistance
    cases parseHex? a <;> cases parseHex? b <;> simp [Nat.xor_comm]
  · intro a ha
    obtain ⟨v, hv⟩ := Option.isSome_iff_exists.mp ha
    simp [calculateDistance, hv]

/-- Witness for C7 at two concrete 12-hex ids. -/
theorem claim_c7_witness :
    calculateDistance "a1b2c3d4e5f6" "0123456789ab" =
      calculateDistance "0123456789ab" "a1b2c3d4e5f6" ∧
      calculateDistance "a1b2c3d4e5f6" "a1b2c3d4e5f6" = some 0 :=
  ⟨claim_c7_distance_symm_and_self.1 _ _,
    claim_c7_distance_symm_and_self.2 _ (by decide)⟩

/-- C8: for every 32-byte digest, generatePeerId returns a 12-character
lowercase-hex identifier (the first 12 characters of the lowercase hex
rendering of the digest); determinism is immediate since
generatePeerId is a pure function of the digest bytes. -/
theorem claim_c8_peer_id_shape (digest : List Nat)
    (hlen : digest.length = 32) (hbytes : ∀ b ∈ digest, b < 256) :
    LowerHex12 (generatePeerId digest) := by
  constructor
  · show (((digest.map byteToHex).flatten).take 12).length = 12
    rw [List.length_take, byteHex_flatten_length, hlen]
    omega
  · intro c hc
    have hc1 : c ∈ (digest.map byteToHex).flatten := List.mem_of_mem_take hc
    obtain ⟨l, hl, hcl⟩ := List.mem_flatten.mp hc1
    obtain ⟨b, hb, hbl⟩ := List.mem_map.mp hl
    have hblt : b < 256 := hbytes b hb
    rw [← hbl] at hcl
    rcases (by simpa [byteToHex] using hcl :
        c = hexChar (b / 16) ∨ c = hexChar (b % 16)) with hce | hce
    · rw [hce]
      exact hexChar_mem_lowerHex _ (Nat.div_lt_of_lt_mul (by omega))
    · rw [hce]
      exact hexChar_mem_lowerHex _ (Nat.mod_lt _ (by omega))

/-- Witness for C8 at a concrete 32-byte digest. -/
theorem claim_c8_witness :
    (List.replicate 32 0).length = 32 ∧
      LowerHex12 (generatePeerId (List.replicate 32 0)) :=
  ⟨by decide, claim_c8_peer_id_shape _ (by decide) (by decide)⟩

/-- C9: for 12-character lowercase-hex ids, the XOR distance is zero
exactly when the two ids are equal. -/
theorem claim_c9_distance_zero_iff_eq (a b : String) (ha : LowerHex12 a)
    (hb : LowerHex12 b) : calculateDistance a b = some 0 ↔ a = b := by
  obtain ⟨va, hva⟩ := parseHex_isSome_of_lowerHex12 a ha
  obtain ⟨vb, hvb⟩ := parseHex_isSome_of_lowerHex12 b hb
  constructor
  · intro h
    simp only [calculateDistance, hva, hvb, Option.some.injEq] at h
    exact parseHex_inj a b ha hb (by rw [hva, hvb, Nat.xor_eq_zero.mp h])
  · intro h
    subst h
    simp [calculateDistance, hva]

/-- Witness for C9 at concrete ids. -/
theorem claim_c9_witness :
    calculateDistance "a1b2c3d4e5f6" "a1b2c3d4e5f6" = some 0 ↔
      "a1b2c3d4e5f6" = "a1b2c3d4e5f6" :=
  claim_c9_distance_zero_iff_eq _ _ (by decide) (by decide)

/-- C4: starting from a log within the bound, any sequence of appends,
each followed by the trimming effect as it runs after each log change,
keeps the log at no more than 500 entries, and what remains is a
suffix of everything appended: the evicted entries are exactly the
oldest ones (FIFO). -/
theorem claim_c4_log_bounded (init msgs : List String)
    (hinit : init.length ≤ 500) :
    (appendTrim init msgs).length ≤ 500 ∧
      appendTrim init msgs <:+ init ++ msgs := by
  induction msgs generalizing init with
  | nil => exact ⟨hinit, by simp [appendTrim]⟩
  | cons m rest ih =>
    obtain ⟨h1, h2⟩ := ih (trimLogs (init ++ [m])) (trimLogs_length_le _)
    refine ⟨h1, ?_⟩
    have hsf2 : trimLogs (init ++ [m]) ++ rest <:+ (init ++ [m]) ++ rest := by
      obtain ⟨t, ht⟩ := trimLogs_suffix (init ++ [m])
      exact ⟨t, by rw [← List.append_assoc, ht]⟩
    have heq : (init ++ [m]) ++ rest = init ++ (m :: rest) := by simp
    exact h2.trans (heq ▸ hsf2)

/-- Witness for C4 at a concrete log and append sequence. -/
theorem claim_c4_witness :
    (appendTrim ["a"] ["b", "c"]).length ≤ 500 ∧
      appendTrim ["a"] ["b", "c"] <:+ ["a"] ++ ["b", "c"] :=
  claim_c4_log_bounded ["a"] ["b", "c"] (by decide)

/-- C1 counterexample: on the one-peer network (empty candidate set)
the round sets the status of the peer to connected, because the source
assigns connected outside the empty/non-empty branch; the claim said
the status stays discovering. -/
theorem claim_c1_counterexample :
    (discoverStep "aaaaaaaaaaaa" 0
      { peers := [freshPeer "aaaaaaaaaaaa" 0], logs := [] }).peers.map
        Peer.status = [PeerStatus.connected] ∧
      PeerStatus.connected ≠ PeerStatus.discovering := by
  decide

/-- C1 (amended): a round on a peer with an empty candidate set clears
the routing table and appends the cleared log line, but the status
becomes connected rather than staying discovering. -/
theorem claim_c1_empty_round (st : NetState) (pid : String) (now : Nat)
    (hfil : st.peers.filter (fun p => p.id != pid) = [])
    (hne : st.peers ≠ []) : EmptyRoundClears st pid now := by
  have hclosest : findClosestPeers pid st.peers = [] :=
    findClosestPeers_of_no_candidates hfil
  have hall : ∀ p ∈ st.peers, p.id = pid := by
    intro p hp
    have := List.filter_eq_nil_iff.mp hfil p hp
    simpa [bne_iff_ne] using this
  constructor
  · intro q hq
    rw [discoverStep_peers, hclosest] at hq
    obtain ⟨p, hp, hpq⟩ := List.mem_map.mp hq
    subst hpq
    simp [peerAfter, hall p hp]
  · simp only [discoverStep, hclosest]
    rw [updatePeerStep_fold_empty_logs pid now st.peers hall]
    apply List.mem_append_left
    apply List.mem_append_right
    cases hps : st.peers with
    | nil => exact absurd hps hne
    | cons p rest => simp

/-- Witness for the amended C1 on the one-peer network. -/
theorem claim_c1_witness :
    EmptyRoundClears { peers := [freshPeer "aaaaaaaaaaaa" 0], logs := [] }
      "aaaaaaaaaaaa" 0 :=
  claim_c1_empty_round _ _ _ (by decide) (by decide)

/-- C2 counterexample: a round started for a peer of the old
generation, completing after the latency reconfiguration has reset the
peer list and a new peer joined, appends log lines (there is no
generation check in the source); the claim said no log entry is
appended. -/
theorem claim_c2_counterexample :
    (discoverStep "aaaaaaaaaaaa" 1
      (addPeer "bbbbbbbbbbbb" 0 (resetPeers
        (addPeer "aaaaaaaaaaaa" 0 { peers := [], logs := [] })))).logs ≠
      (addPeer "bbbbbbbbbbbb" 0 (resetPeers
        (addPeer "aaaaaaaaaaaa" 0 { peers := [], logs := [] }))).logs := by
  decide

/-- C2 (amended): a stale round whose peer id is absent from the
current peer list mutates no peer when it completes, but it does
append its two unconditional log lines; stale results are not
discarded. -/
theorem claim_c2_stale_round (st : NetState) (pid : String) (now : Nat)
    (h : ∀ p ∈ st.peers, p.id ≠ pid) :
    (discoverStep pid now st).peers = st.peers ∧
      (discoverStep pid now st).logs = st.logs ++
        [discoveringMsg pid,
          foundMsg pid (findClosestPeers pid st.peers).length] :=
  discoverStep_stale pid now st h

/-- Witness for the amended C2 on a reset one-peer network. -/
theorem claim_c2_witness :
    (discoverStep "aaaaaaaaaaaa" 1
      { peers := [freshPeer "bbbbbbbbbbbb" 0], logs := [] }).peers =
      ({ peers := [freshPeer "bbbbbbbbbbbb" 0], logs := [] } :
        NetState).peers ∧
      (discoverStep "aaaaaaaaaaaa" 1
        { peers := [freshPeer "bbbbbbbbbbbb" 0], logs := [] }).logs =
        ({ peers := [freshPeer "bbbbbbbbbbbb" 0], logs := [] } :
          NetState).logs ++
          [discoveringMsg "aaaaaaaaaaaa",
            foundMsg "aaaaaaaaaaaa" (findClosestPeers "aaaaaaaaaaaa"
              [freshPeer "bbbbbbbbbbbb" 0]).length] :=
  claim_c2_stale_round _ _ _ (by decide)

/-- C3: on a network with pairwise-distinct peer ids and well-formed
tables (no duplicate keys, true of every table the component builds),
a completed round leaves the discovered peer with at most 3 routing
entries, and exactly 3 whenever at least 3 candidates existed. -/
theorem claim_c3_table_size (st : NetState) (pid : String) (now : Nat)
    (hids : (st.peers.map Peer.id).Nodup)
    (hwf : ∀ p ∈ st.peers, (p.routingTable.map Prod.fst).Nodup) :
    RoundSizeOk st pid now := by
  intro q hq hqid
  rw [discoverStep_peers] at hq
  obtain ⟨p, hp, hpq⟩ := List.mem_map.mp hq
  subst hpq
  by_cases hid : p.id = pid
  · by_cases hc : (findClosestPeers pid st.peers).length = 0
    · refine ⟨by simp [peerAfter, hid, hc], fun h3 => absurd hc ?_⟩
      rw [findClosestPeers_length]
      omega
    · have hlen : (peerAfter pid (findClosestPeers pid st.peers) now
          p).routingTable.length = (findClosestPeers pid st.peers).length := by
        simp only [peerAfter, if_pos hid, if_neg hc]
        exact matched_table_length (findClosestPeers_ids_nodup hids) (hwf p hp)
      rw [hlen, findClosestPeers_length]
      exact ⟨by omega, fun h3 => by omega⟩
  · exfalso
    simp only [peerAfter, if_neg hid] at hqid
    exact hid hqid

/-- Witness for C3 on a four-peer network (three candidates). -/
theorem claim_c3_witness :
    RoundSizeOk
      { peers := [freshPeer "aaaaaaaaaaa1" 0, freshPeer "aaaaaaaaaaa2" 0,
          freshPeer "aaaaaaaaaaa3" 0, freshPeer "aaaaaaaaaaa4" 0],
        logs := [] } "aaaaaaaaaaa1" 5 :=
  claim_c3_table_size _ _ _ (by decide) (by decide)

/-- C5: in every reachable state of the component, no routing table
contains an entry keyed by the own id of the owning peer. -/
theorem claim_c5_no_self_entry (st : NetState) (h : Reachable st) :
    NoSelfEntry st := by
  induction h with
  | init => intro p hp; simp at hp
  | add id now hst ih =>
    intro p hp e he
    rcases List.mem_append.mp hp with hmem | hmem
    · exact ih p hmem e he
    · have : p = freshPeer id now := by simpa using hmem
      rw [this] at he
      simp [freshPeer] at he
  | logMsg msg hst ih => exact ih
  | remove pid hst ih =>
    intro p hp
    exact ih p (List.mem_of_mem_filter hp)
  | discover pid now hst ih =>
    rename_i st'
    intro q hq e he
    rw [discoverStep_peers] at hq
    obtain ⟨p, hp, hpq⟩ := List.mem_map.mp hq
    subst hpq
    by_cases hid : p.id = pid
    · by_cases hc : (findClosestPeers pid st'.peers).length = 0
      · simp [peerAfter, hid, hc] at he
      · simp only [peerAfter, if_pos hid, if_neg hc] at he ⊢
        obtain ⟨c, hcc, hce⟩ := matched_table_entries he
        rw [hce, hid]
        exact (findClosestPeers_mem hcc).2
    · simp only [peerAfter, if_neg hid]
      exact ih p hp e (by simpa [peerAfter, hid] using he)
  | touch f hst ih =>
    intro q hq e he
    obtain ⟨p, hp, hpq⟩ := List.mem_map.mp hq
    subst hpq
    exact ih p hp e he
  | trim hst ih => exact ih
  | reset hst ih => intro p hp; simp [resetPeers] at hp

/-- Witness for C5 on a concrete reachable state: two peers join and
one runs a discovery round. -/
theorem claim_c5_witness :
    NoSelfEntry (discoverStep "aaaaaaaaaaaa" 2
      (addPeer "bbbbbbbbbbbb" 1
        (addPeer "aaaaaaaaaaaa" 0 { peers := [], logs := [] }))) :=
  claim_c5_no_self_entry _
    (Reachable.discover _ _ (Reachable.add _ _ (Reachable.add _ _
      Reachable.init)))

/-- C6: removing a peer leaves every remaining peer, with its routing
table (stale entries included), exactly as it was; and when a
remaining peer runs its own next discovery round on the shrunken
network, its table ends with no entry keyed by the removed id. -/
theorem claim_c6_lazy_removal (st : NetState) (pid : String) (q : Peer)
    (now : Nat) (hq : q ∈ st.peers) (hne : q.id ≠ pid) :
    q ∈ (removePeer pid st).peers ∧
      StalePruned (removePeer pid st) q.id pid now := by
  constructor
  · exact List.mem_filter.mpr ⟨hq, by simp [bne_iff_ne, hne]⟩
  · intro r hr hrid e he
    rw [discoverStep_peers] at hr
    obtain ⟨p, hp, hpr⟩ := List.mem_map.mp hr
    subst hpr
    by_cases hid : p.id = q.id
    · by_cases hc :
          (findClosestPeers q.id (removePeer pid st).peers).length = 0
      · simp [peerAfter, hid, hc] at he
      · simp only [peerAfter, if_pos hid, if_neg hc] at he
        obtain ⟨c, hcc, hce⟩ := matched_table_entries he
        rw [hce]
        have hcmem := (findClosestPeers_mem hcc).1
        have hcfil := List.mem_filter.mp hcmem
        simpa [bne_iff_ne] using hcfil.2
    · exfalso
      simp only [peerAfter, if_neg hid] at hrid
      exact hid hrid

/-- Witness for C6: a peer holding a stale entry for the removed id
survives removal unchanged, and its next round prunes that entry. -/
theorem claim_c6_witness :
    (⟨"aaaaaaaaaaa1", [("aaaaaaaaaaa2", ⟨3, 0⟩)], 0,
        PeerStatus.connected⟩ : Peer) ∈
      (removePeer "aaaaaaaaaaa2"
        { peers := [⟨"aaaaaaaaaaa1", [("aaaaaaaaaaa2", ⟨3, 0⟩)], 0,
            PeerStatus.connected⟩, freshPeer "aaaaaaaaaaa2" 0,
            freshPeer "aaaaaaaaaaa3" 0],
          logs := [] }).peers ∧
      StalePruned (removePeer "aaaaaaaaaaa2"
        { peers := [⟨"aaaaaaaaaaa1", [("aaaaaaaaaaa2", ⟨3, 0⟩)], 0,
            PeerStatus.connected⟩, freshPeer "aaaaaaaaaaa2" 0,
            freshPeer "aaaaaaaaaaa3" 0],
          logs := [] }) "aaaaaaaaaaa1" "aaaaaaaaaaa2" 7 :=
  claim_c6_lazy_removal _ _ _ _ (by decide) (by decide)

/-- C10: with hex ids (as every generated id is), after a round with a
non-empty candidate set every entry of the table of the discovered
peer stores exactly the XOR distance between the owner id and the
entry key. -/
theorem claim_c10_distance_consistent (st : NetState) (pid : String)
    (now : Nat) (hval : ∀ p ∈ st.peers, LowerHex12 p.id)
    (hpid : LowerHex12 pid)
    (hcand : (st.peers.filter (fun p => p.id != pid)).length ≠ 0) :
    DistConsistent (discoverStep pid now st) pid := by
  intro q hq hqid e he
  rw [discoverStep_peers] at hq
  obtain ⟨p, hp, hpq⟩ := List.mem_map.mp hq
  subst hpq
  by_cases hid : p.id = pid
  · have hc : (findClosestPeers pid st.peers).length ≠ 0 := by
      rw [findClosestPeers_length]
      omega
    simp only [peerAfter, if_pos hid, if_neg hc] at he
    obtain ⟨c, hcc, hce⟩ := matched_table_entries he
    rw [hce]
    have hcid : LowerHex12 c.id := hval c (findClosestPeers_mem hcc).1
    simpa using calculateDistance_eq_distNat pid c.id hpid hcid
  · exfalso
    simp only [peerAfter, if_neg hid] at hqid
    exact hid hqid

/-- Witness for C10 on a two-peer network. -/
theorem claim_c10_witness :
    DistConsistent (discoverStep "aaaaaaaaaaa1" 4
      { peers := [freshPeer "aaaaaaaaaaa1" 0, freshPeer "aaaaaaaaaaa2" 0],
        logs := [] }) "aaaaaaaaaaa1" :=
  claim_c10_distance_consistent _ _ _ (by decide) (by decide) (by decide)
